import Mathlib

/-
Verification of the phase2 clustering stage
(src/src/lib/server/pipeline/phase2-hdbscan.py).

The script filters items that carry a non-empty embedding, caps the number
of items per publisher, runs HDBSCAN over the sampled embedding vectors and
partitions the sampled items into clusters and noise.  The HDBSCAN library
and sklearn's normalize are external capabilities; they are modelled as
function parameters (H, nrm).  Everything written in the script itself is
embedded below.  Embedding components are modelled as rationals.
-/

namespace Phase2

/-- The nested record item has at the key, with its publisher field;
a missing publisher key is modelled as none. -/
structure Src where
  publisher : Option String
deriving DecidableEq

/-- An input item: the nested source record (missing key modelled as none),
the optional summaryEmbedding vector, and the remaining fields, passed
through unexamined, collapsed into an opaque payload string. -/
structure Item where
  source : Option Src
  summaryEmbedding : Option (List ℚ)
  payload : String
deriving DecidableEq

/-- Evaluation of the dictionary lookups item["source"]["publisher"]:
none models a KeyError. -/
def publisherOf (it : Item) : Option String :=
  it.source.bind Src.publisher

/-- The filter condition of main: item.get("summaryEmbedding") is truthy
and has positive length (absent key and empty list are both falsy). -/
def hasEmbedding (it : Item) : Bool :=
  match it.summaryEmbedding with
  | some l => decide (0 < l.length)
  | none => false

/-- items_with_embedding in main: the ordered subsequence of items whose
embedding is present and non-empty. -/
def filteredItems (items : List Item) : List Item :=
  items.filter hasEmbedding

/-- item["summaryEmbedding"] on an item that passed the filter. -/
def embeddingOf (it : Item) : List ℚ :=
  it.summaryEmbedding.getD []

/-- The loop of uniform_sampling, carrying the defaultdict of per-publisher
counts.  Each item's publisher is looked up before the count test, so a
missing publisher key fails the whole run (KeyError), modelled as none. -/
def samplingGo (k : Nat) (counts : String → Nat) : List Item → Option (List Item)
  | [] => some []
  | it :: rest =>
    match publisherOf it with
    | none => none
    | some p =>
      if counts p < k then
        (samplingGo k (fun q => if q = p then counts p + 1 else counts q) rest).map
          (fun s => it :: s)
      else
        samplingGo k counts rest

/-- uniform_sampling: keep an item iff fewer than max_per_publisher items
with the same publisher have already been kept.  main invokes it with
max_per_publisher = 3 (the source's default for the parameter). -/
def uniform_sampling (items : List Item) (max_per_publisher : Nat) : Option (List Item) :=
  samplingGo max_per_publisher (fun _ => 0) items

/-- The keyword arguments of the hdbscan.HDBSCAN constructor call. -/
structure HdbscanParams where
  min_cluster_size : Nat
  min_samples : Nat
  metric : String
  allow_single_cluster : Bool
  cluster_selection_epsilon : ℚ
  cluster_selection_method : String
  gen_min_span_tree : Bool
deriving DecidableEq

/-- run_hdbscan: H models the external hdbscan fit_predict capability and
nrm models sklearn.preprocessing.normalize (L2 row normalization).  For
metric "cosine" the vectors are normalized and the metric becomes
"euclidean"; any other metric passes the vectors through untransformed. -/
def run_hdbscan (H : HdbscanParams → List (List ℚ) → List Int)
    (nrm : List (List ℚ) → List (List ℚ))
    (embeddings : List (List ℚ)) (min_cluster_size : Nat) (metric : String) :
    List Int :=
  let pair := if metric = "cosine" then (nrm embeddings, "euclidean") else (embeddings, metric)
  H { min_cluster_size := min_cluster_size
      min_samples := 2
      metric := pair.2
      allow_single_cluster := false
      cluster_selection_epsilon := 0.05
      cluster_selection_method := "leaf"
      gen_min_span_tree := false } pair.1

/-- clusters[int(label)].append(item) on the insertion-ordered dict,
modelled as an association list: append to the entry with this label,
or add a fresh entry at the end. -/
def addToCluster (cl : List (Int × List Item)) (lab : Int) (it : Item) :
    List (Int × List Item) :=
  match cl with
  | [] => [(lab, [it])]
  | (l, its) :: rest =>
    if l = lab then (l, its ++ [it]) :: rest
    else (l, its) :: addToCluster rest lab it

/-- The partition loop of main: for idx, label in enumerate(labels) with
item = sampled_items[idx].  Iteration is driven by the label list; an index
beyond the item list is an IndexError, modelled as none; surplus items
beyond the label list are never visited. -/
def assembleGo : List Int → List Item → List (Int × List Item) → List Item →
    Option (List (Int × List Item) × List Item)
  | [], _, cl, ns => some (cl, ns)
  | _ :: _, [], _, _ => none
  | lab :: labs, it :: its, cl, ns =>
    if lab = -1 then assembleGo labs its cl (ns ++ [it])
    else assembleGo labs its (addToCluster cl lab it) ns

/-- The partition of the sampled items by their labels: the
insertion-ordered cluster dict and the noise list. -/
def assemble (sampled : List Item) (labels : List Int) :
    Option (List (Int × List Item) × List Item) :=
  assembleGo labels sampled [] []

/-- stats of the output artifact. -/
structure Stats where
  sampled_items : Nat
  clusters : Nat
  noise_items : Nat
deriving DecidableEq

/-- One entry of the clusters field of the output artifact. -/
structure Cluster where
  cluster_id : Int
  items : List Item
deriving DecidableEq

/-- The output artifact written by main. -/
structure ClusterResult where
  date : String
  stats : Stats
  clusters : List Cluster
  noise_items : List Item
deriving DecidableEq

/-- The computation of main after the input artifact is loaded: none models
a run that dies with an uncaught exception before writing any output;
some r models a run that writes the artifact r. -/
def phase2Main (H : HdbscanParams → List (List ℚ) → List Int)
    (nrm : List (List ℚ) → List (List ℚ))
    (date : String) (min_cluster_size : Nat) (metric : String)
    (items : List Item) : Option ClusterResult :=
  if (filteredItems items).length < min_cluster_size then
    some { date := date
           stats := { sampled_items := (filteredItems items).length
                      clusters := 0
                      noise_items := (filteredItems items).length }
           clusters := []
           noise_items := filteredItems items }
  else
    match uniform_sampling (filteredItems items) 3 with
    | none => none
    | some sampled =>
      match assemble sampled
          (run_hdbscan H nrm (sampled.map embeddingOf) min_cluster_size metric) with
      | none => none
      | some p =>
        some { date := date
               stats := { sampled_items := sampled.length
                          clusters := p.1.length
                          noise_items := p.2.length }
               clusters := p.1.map (fun q => { cluster_id := q.1, items := q.2 })
               noise_items := p.2 }

/-- The list of items that reach the partition step: in the degenerate path
the filtered items themselves (all becoming noise), otherwise the output of
the publisher sampler.  This mirrors the prefix of phase2Main before the
cluster engine. -/
def clusteringInput (min_cluster_size : Nat) (items : List Item) : Option (List Item) :=
  if (filteredItems items).length < min_cluster_size then some (filteredItems items)
  else uniform_sampling (filteredItems items) 3

/-- The argument check at the top of main: sys.argv has the script name at
index 0, so fewer than 3 positional arguments means len(sys.argv) < 4.
usage models printing the usage string and exiting with the given nonzero
status before any file is opened; run carries the parsed positions. -/
inductive CliOutcome where
  | usage (exitCode : Nat)
  | run (work_dir : String) (date : String) (min_cluster_size_arg : String) (metric : String)
deriving DecidableEq

/-- The CLI dispatch of main: argv[1..3] are required, argv[4] is the
optional metric defaulting to "euclidean". -/
def cliDispatch (argv : List String) : CliOutcome :=
  if argv.length < 4 then CliOutcome.usage 1
  else CliOutcome.run (argv.getD 1 "") (argv.getD 2 "") (argv.getD 3 "")
    (if 4 < argv.length then argv.getD 4 "" else "euclidean")

/-- Boolean test that an item's publisher lookup yields exactly p. -/
def pubIs (p : String) (it : Item) : Bool :=
  decide (publisherOf it = some p)

/-- A publisher used by the concrete test items. -/
def srcAlpha : Src := { publisher := some "alpha" }

def itemA : Item := { source := some srcAlpha, summaryEmbedding := some [1, 0], payload := "a" }

def itemB : Item := { source := some srcAlpha, summaryEmbedding := some [0, 1], payload := "b" }

def itemC : Item := { source := some srcAlpha, summaryEmbedding := some [1, 1], payload := "c" }

def itemD : Item := { source := some srcAlpha, summaryEmbedding := some [2, 1], payload := "d" }

/-- An item without an embedding. -/
def itemN : Item := { source := some srcAlpha, summaryEmbedding := none, payload := "n" }

/-- An item with an embedding whose source record lacks the publisher key. -/
def itemX : Item := { source := some { publisher := none }, summaryEmbedding := some [3, 3], payload := "x" }

/-- A concrete stand-in for the external clustering capability: every point
is labelled noise.  It returns one label per input vector, as the HDBSCAN
contract requires. -/
def constNoise : HdbscanParams → List (List ℚ) → List Int :=
  fun _ vs => vs.map (fun _ => -1)

/-- Spec-side definition (written from the spec's words, for comparison
with the assembler): the order in which labels are first encountered while
scanning, skipping the ones already seen. -/
def firstOccurrences (seen : List Int) : List Int → List Int
  | [] => []
  | x :: xs => if x ∈ seen then firstOccurrences seen xs else x :: firstOccurrences (x :: seen) xs

/-- Lookup in the association list modelling the cluster dict ([] when the
label has no entry). -/
def assocD (cl : List (Int × List Item)) (lab : Int) : List Item :=
  match cl with
  | [] => []
  | (l, its) :: rest => if l = lab then its else assocD rest lab

/-- Spec-side definition: the items whose parallel label equals lab, in
scan order. -/
def labItems (lab : Int) (labs : List Int) (its : List Item) : List Item :=
  ((labs.zip its).filter (fun q => decide (q.1 = lab))).map Prod.snd

/-- The output artifact produced on [itemA, itemB] with min_cluster_size 2
under the constNoise capability: both items end up as noise. -/
def resAB : ClusterResult :=
  { date := "d"
    stats := { sampled_items := 2, clusters := 0, noise_items := 2 }
    clusters := []
    noise_items := [itemA, itemB] }

theorem constNoise_length (cfg : HdbscanParams) (vs : List (List ℚ)) :
    (constNoise cfg vs).length = vs.length := by
  simp [constNoise]

/-- The invariant of the sampling loop: a successful run returns an
order-preserving subsequence in which, for each publisher p, exactly the
first k - counts p of the remaining items with publisher p are kept. -/
theorem samplingGo_spec (k : Nat) (items : List Item) :
    ∀ (c : String → Nat) (s : List Item),
      samplingGo k c items = some s →
      s.Sublist items ∧
      ∀ p : String,
        s.filter (pubIs p) = (items.filter (pubIs p)).take (k - c p) := by
  induction items with
  | nil =>
    intro c s h
    simp [samplingGo] at h
    subst h
    exact ⟨List.Sublist.refl _, fun p => by simp⟩
  | cons it rest ih =>
    intro c s h
    rw [samplingGo] at h
    cases hp : publisherOf it with
    | none => rw [hp] at h; exact absurd h (by simp)
    | some p0 =>
      rw [hp] at h
      dsimp only at h
      by_cases hc : c p0 < k
      · rw [if_pos hc] at h
        obtain ⟨s', hs', rfl⟩ := Option.map_eq_some'.mp h
        obtain ⟨hsub, hfilt⟩ := ih _ _ hs'
        refine ⟨hsub.cons₂ it, fun p => ?_⟩
        by_cases hpp : p = p0
        · subst hpp
          have h1 : k - c p = (k - (c p + 1)) + 1 := by omega
          have h2 : pubIs p it = true := by simp [pubIs, hp]
          rw [List.filter_cons_of_pos h2, List.filter_cons_of_pos h2, h1,
            List.take_succ_cons, hfilt p]
          simp
        · have h2 : pubIs p it = false := by
            simp [pubIs, hp, Option.some.injEq]
            exact fun hq => hpp hq.symm
          rw [List.filter_cons_of_neg (by simp [h2]),
            List.filter_cons_of_neg (by simp [h2]), hfilt p]
          rw [if_neg hpp]
      · rw [if_neg hc] at h
        obtain ⟨hsub, hfilt⟩ := ih _ _ h
        refine ⟨hsub.cons it, fun p => ?_⟩
        by_cases hpp : p = p0
        · subst hpp
          have h1 : k - c p = 0 := by omega
          rw [hfilt p, h1]
          simp
        · have h2 : pubIs p it = false := by
            simp [pubIs, hp, Option.some.injEq]
            exact fun hq => hpp hq.symm
          rw [List.filter_cons_of_neg (by simp [h2]), hfilt p]

/-- If any item in the list lacks its publisher key, the sampling loop
fails regardless of the running counts. -/
theorem samplingGo_none (k : Nat) (items : List Item)
    (hbad : ∃ it ∈ items, publisherOf it = none) :
    ∀ c, samplingGo k c items = none := by
  induction items with
  | nil => exact absurd hbad (by simp)
  | cons it rest ih =>
    intro c
    rw [samplingGo]
    obtain ⟨w, hw, hwn⟩ := hbad
    rcases List.mem_cons.mp hw with rfl | hw'
    · rw [hwn]
    · cases hp : publisherOf it with
      | none => rfl
      | some p0 =>
        dsimp only
        have ih' := ih ⟨w, hw', hwn⟩
        by_cases hc : c p0 < k
        · rw [if_pos hc, ih']; rfl
        · rw [if_neg hc, ih']

/-- Appending an item into the cluster dict adds exactly that item to the
flattened contents, up to permutation. -/
theorem addToCluster_flatten (cl : List (Int × List Item)) (lab : Int) (it : Item) :
    ((addToCluster cl lab it).flatMap (fun q => q.2)).Perm (it :: cl.flatMap (fun q => q.2)) := by
  induction cl with
  | nil => simp [addToCluster]
  | cons hd tl ih =>
    obtain ⟨l, its⟩ := hd
    rw [addToCluster]
    by_cases hl : l = lab
    · rw [if_pos hl]
      simp only [List.flatMap_cons, List.append_assoc, List.singleton_append]
      exact List.perm_middle
    · rw [if_neg hl]
      simp only [List.flatMap_cons]
      exact ((ih.append_left its).trans List.perm_middle)

/-- The partition loop distributes each visited item into exactly one
bucket: the flattened output is a permutation of what was already placed
plus the items visited. -/
theorem assembleGo_perm (labs : List Int) :
    ∀ (its : List Item) (cl : List (Int × List Item)) (ns : List Item)
      (cl' : List (Int × List Item)) (ns' : List Item),
      labs.length = its.length →
      assembleGo labs its cl ns = some (cl', ns') →
      ((cl'.flatMap (fun q => q.2)) ++ ns').Perm ((cl.flatMap (fun q => q.2)) ++ ns ++ its) := by
  induction labs with
  | nil =>
    intro its cl ns cl' ns' hlen h
    cases its with
    | nil =>
      rw [assembleGo] at h
      simp only [Option.some.injEq, Prod.mk.injEq] at h
      obtain ⟨rfl, rfl⟩ := h
      simp
    | cons _ _ => simp at hlen
  | cons lab labs2 ih =>
    intro its cl ns cl' ns' hlen h
    cases its with
    | nil => simp at hlen
    | cons it its2 =>
      rw [assembleGo] at h
      have hlen2 : labs2.length = its2.length := by
        simpa using hlen
      by_cases hl : lab = -1
      · rw [if_pos hl] at h
        have h' := ih its2 cl (ns ++ [it]) cl' ns' hlen2 h
        refine h'.trans ?_
        simp [List.append_assoc]
      · rw [if_neg hl] at h
        have h' := ih its2 (addToCluster cl lab it) ns cl' ns' hlen2 h
        refine h'.trans ?_
        have h1 := (addToCluster_flatten cl lab it).append_right ns
        refine ((h1.append_right its2).trans ?_)
        simp only [List.cons_append]
        exact (List.perm_middle.symm).trans (by simp [List.append_assoc])

/-- When each label has a matching item (the HDBSCAN contract), the
partition loop succeeds. -/
theorem assembleGo_some (labs : List Int) :
    ∀ (its : List Item) (cl : List (Int × List Item)) (ns : List Item),
      labs.length = its.length →
      ∃ r, assembleGo labs its cl ns = some r := by
  induction labs with
  | nil => intro its cl ns _; exact ⟨(cl, ns), rfl⟩
  | cons lab labs2 ih =>
    intro its cl ns hlen
    cases its with
    | nil => simp at hlen
    | cons it its2 =>
      have hlen2 : labs2.length = its2.length := by simpa using hlen
      rw [assembleGo]
      by_cases hl : lab = -1
      · rw [if_pos hl]; exact ih its2 cl (ns ++ [it]) hlen2
      · rw [if_neg hl]; exact ih its2 (addToCluster cl lab it) ns hlen2

/-- run_hdbscan produces one label per input vector whenever both external
capabilities are length preserving. -/
theorem run_hdbscan_length (H : HdbscanParams → List (List ℚ) → List Int)
    (nrm : List (List ℚ) → List (List ℚ))
    (emb : List (List ℚ)) (mcs : Nat) (m : String)
    (hH : ∀ cfg vs, (H cfg vs).length = vs.length)
    (hnrm : ∀ vs, (nrm vs).length = vs.length) :
    (run_hdbscan H nrm emb mcs m).length = emb.length := by
  unfold run_hdbscan
  by_cases hm : m = "cosine" <;> simp [hm, hH, hnrm]

/-- Flattening the mapped Cluster records gives the flattened association
list. -/
theorem flatMap_map_items (cl : List (Int × List Item)) :
    ((cl.map (fun q => ({ cluster_id := q.1, items := q.2 } : Cluster))).flatMap
        (fun cle => cle.items)) = cl.flatMap (fun q => q.2) := by
  induction cl with
  | nil => simp
  | cons hd tl ih => simp [ih]

/-- The length of the flattened cluster dict is the sum of the per-cluster
item counts. -/
theorem flatten_length (cl : List (Int × List Item)) :
    (cl.flatMap (fun q => q.2)).length = (cl.map (fun q => q.2.length)).sum := by
  induction cl with
  | nil => simp
  | cons hd tl ih => simp [ih]

/-- Claim C1: whenever the program produces an output, stats.sampled_items
equals the sum of the cluster item counts plus the length of noise_items,
and the items that reached the partition step reappear, each exactly once
(never duplicated, never dropped), distributed over the clusters and the
noise list.  The hypotheses state the contracts of the external
capabilities: one label per vector and shape-preserving normalization. -/
theorem phase2Main_partition_invariant
    (H : HdbscanParams → List (List ℚ) → List Int)
    (nrm : List (List ℚ) → List (List ℚ))
    (d : String) (mcs : Nat) (m : String) (items : List Item) (r : ClusterResult)
    (hH : ∀ cfg vs, (H cfg vs).length = vs.length)
    (hnrm : ∀ vs, (nrm vs).length = vs.length)
    (hres : phase2Main H nrm d mcs m items = some r) :
    (∃ entered, clusteringInput mcs items = some entered ∧
      ((r.clusters.flatMap (fun cle => cle.items)) ++ r.noise_items).Perm entered) ∧
    r.stats.sampled_items
      = (r.clusters.map (fun cle => cle.items.length)).sum + r.noise_items.length := by
  unfold phase2Main at hres
  by_cases hdeg : (filteredItems items).length < mcs
  · rw [if_pos hdeg] at hres
    simp only [Option.some.injEq] at hres
    subst hres
    exact ⟨⟨filteredItems items, by rw [clusteringInput, if_pos hdeg], by simp⟩, by simp⟩
  · rw [if_neg hdeg] at hres
    cases hus : uniform_sampling (filteredItems items) 3 with
    | none => rw [hus] at hres; exact absurd hres (by simp)
    | some sampled =>
      rw [hus] at hres
      dsimp only at hres
      cases has : assemble sampled (run_hdbscan H nrm (sampled.map embeddingOf) mcs m) with
      | none => rw [has] at hres; exact absurd hres (by simp)
      | some p =>
        rw [has] at hres
        dsimp only at hres
        simp only [Option.some.injEq] at hres
        subst hres
        obtain ⟨cl1, ns1⟩ := p
        have hlen : (run_hdbscan H nrm (sampled.map embeddingOf) mcs m).length
            = sampled.length := by
          rw [run_hdbscan_length H nrm _ mcs m hH hnrm, List.length_map]
        have hperm := assembleGo_perm _ sampled [] [] cl1 ns1 (by rw [hlen]) has
        simp only [List.flatMap_nil, List.nil_append] at hperm
        constructor
        · refine ⟨sampled, by rw [clusteringInput, if_neg hdeg]; exact hus, ?_⟩
          simpa [flatMap_map_items] using hperm
        · have hcount := hperm.length_eq
          simp only [List.length_append, flatten_length] at hcount
          simpa [List.map_map, Function.comp] using hcount.symm

/-- Instantiation of the C1 invariant: with the constNoise capability on
two items of the same publisher, both become noise and the counts add up. -/
theorem phase2Main_partition_invariant_witness :
    (∃ entered, clusteringInput 2 [itemA, itemB] = some entered ∧
      ((resAB.clusters.flatMap (fun cle => cle.items)) ++ resAB.noise_items).Perm entered) ∧
    resAB.stats.sampled_items
      = (resAB.clusters.map (fun cle => cle.items.length)).sum + resAB.noise_items.length :=
  phase2Main_partition_invariant constNoise id "d" 2 "euclidean" [itemA, itemB] resAB
    constNoise_length (fun _ => rfl) (by rfl)

/-- Claim C2: when fewer items survive the embedding filter than
min_cluster_size, the sampler and the cluster engine are skipped and the
output has zero clusters, noise_items exactly the ordered filtered set, and
sampled_items equal to the filtered count (hence equal to noise_items). -/
theorem phase2Main_degenerate
    (H : HdbscanParams → List (List ℚ) → List Int)
    (nrm : List (List ℚ) → List (List ℚ))
    (d : String) (mcs : Nat) (m : String) (items : List Item)
    (h : (filteredItems items).length < mcs) :
    phase2Main H nrm d mcs m items = some
      { date := d
        stats := { sampled_items := (filteredItems items).length
                   clusters := 0
                   noise_items := (filteredItems items).length }
        clusters := []
        noise_items := filteredItems items } := by
  unfold phase2Main
  rw [if_pos h]

/-- Instantiation of C2 at min_cluster_size 3 with only two filtered items
(Scenario B): zero clusters, two noise items, sampled_items = 2. -/
theorem phase2Main_degenerate_witness :
    phase2Main constNoise id "d" 3 "euclidean" [itemA, itemN, itemB] = some
      { date := "d"
        stats := { sampled_items := (filteredItems [itemA, itemN, itemB]).length
                   clusters := 0
                   noise_items := (filteredItems [itemA, itemN, itemB]).length }
        clusters := []
        noise_items := filteredItems [itemA, itemN, itemB] } :=
  phase2Main_degenerate constNoise id "d" 3 "euclidean" [itemA, itemN, itemB] (by decide)

/-- Claim C3: the publisher sampler returns the order-preserving
subsequence of the single left-to-right scan keeping an item iff fewer
than max_per_publisher items of its publisher were already kept: the
output is a sublist of the input, no publisher contributes more than the
limit, and each publisher contributes exactly the first
max_per_publisher of its items in original order. -/
theorem uniform_sampling_scan (items : List Item) (k : Nat) (s : List Item)
    (h : uniform_sampling items k = some s) :
    s.Sublist items ∧
    (∀ p : String, (s.filter (pubIs p)).length ≤ k) ∧
    (∀ p : String, s.filter (pubIs p) = (items.filter (pubIs p)).take k) := by
  obtain ⟨hsub, hfilt⟩ := samplingGo_spec k items (fun _ => 0) s h
  refine ⟨hsub, fun p => ?_, fun p => ?_⟩
  · rw [hfilt p]
    simp [List.length_take_le]
  · simpa using hfilt p

/-- Instantiation of C3 (Scenario C): ten items of one publisher with
limit 3 keep exactly the first three in original order. -/
theorem uniform_sampling_scan_witness :
    ([itemA, itemB, itemC].Sublist
        [itemA, itemB, itemC, itemD, itemA, itemB, itemC, itemD, itemA, itemB]) ∧
    (∀ p : String, (([itemA, itemB, itemC] : List Item).filter (pubIs p)).length ≤ 3) ∧
    (∀ p : String, ([itemA, itemB, itemC] : List Item).filter (pubIs p)
        = (([itemA, itemB, itemC, itemD, itemA, itemB, itemC, itemD, itemA, itemB] :
            List Item).filter (pubIs p)).take 3) :=
  uniform_sampling_scan
    [itemA, itemB, itemC, itemD, itemA, itemB, itemC, itemD, itemA, itemB] 3
    [itemA, itemB, itemC] (by rfl)

/-- Claim C8: when an item that reaches the publisher sampler lacks its
publisher key, the run dies during sampling and no output at all is
produced (phase2Main = none). -/
theorem phase2Main_missing_publisher
    (H : HdbscanParams → List (List ℚ) → List Int)
    (nrm : List (List ℚ) → List (List ℚ))
    (d : String) (mcs : Nat) (m : String) (items : List Item)
    (h1 : ¬ (filteredItems items).length < mcs)
    (h2 : ∃ it ∈ filteredItems items, publisherOf it = none) :
    phase2Main H nrm d mcs m items = none := by
  unfold phase2Main
  rw [if_neg h1]
  have hn : uniform_sampling (filteredItems items) 3 = none :=
    samplingGo_none 3 (filteredItems items) h2 _
  rw [hn]

/-- Instantiation of C8: an item with an embedding but no publisher key
makes the whole run fail with no output. -/
theorem phase2Main_missing_publisher_witness :
    phase2Main constNoise id "d" 2 "euclidean" [itemA, itemX] = none :=
  phase2Main_missing_publisher constNoise id "d" 2 "euclidean" [itemA, itemX]
    (by decide) ⟨itemX, by decide, rfl⟩

/-- Claim C9: with fewer than 3 positional arguments (len(sys.argv) < 4)
the program takes the usage branch, which prints the usage line and exits
with status 1 before any file is opened; the exit status is non-zero. -/
theorem cliDispatch_usage (argv : List String) (h : argv.length < 4) :
    cliDispatch argv = CliOutcome.usage 1 ∧ (1 : Nat) ≠ 0 := by
  refine ⟨?_, by decide⟩
  unfold cliDispatch
  rw [if_pos h]

/-- Instantiation of C9: invoking with only the script name. -/
theorem cliDispatch_usage_witness :
    cliDispatch ["phase2-hdbscan.py"] = CliOutcome.usage 1 ∧ (1 : Nat) ≠ 0 :=
  cliDispatch_usage ["phase2-hdbscan.py"] (by decide)

/-- Claim C4: with metric "cosine" the engine wrapper first applies the
normalization capability and then runs the density algorithm with the
euclidean metric, so the labels on V under "cosine" coincide with the
labels on the normalized V under "euclidean"; with any other metric the
vectors are passed through untransformed under that metric. -/
theorem run_hdbscan_metric_policy
    (H : HdbscanParams → List (List ℚ) → List Int)
    (nrm : List (List ℚ) → List (List ℚ))
    (V : List (List ℚ)) (mcs : Nat) (m : String) :
    run_hdbscan H nrm V mcs "cosine" = run_hdbscan H nrm (nrm V) mcs "euclidean" ∧
    (m ≠ "cosine" → run_hdbscan H nrm V mcs m =
      H { min_cluster_size := mcs
          min_samples := 2
          metric := m
          allow_single_cluster := false
          cluster_selection_epsilon := 0.05
          cluster_selection_method := "leaf"
          gen_min_span_tree := false } V) := by
  constructor
  · rfl
  · intro hm
    unfold run_hdbscan
    rw [if_neg hm]

/-- Instantiation of C4 at the metric "manhattan", which is not "cosine":
the vectors reach the capability untransformed. -/
theorem run_hdbscan_metric_policy_witness :
    run_hdbscan constNoise id [[1, 2]] 2 "manhattan" = constNoise
      { min_cluster_size := 2
        min_samples := 2
        metric := "manhattan"
        allow_single_cluster := false
        cluster_selection_epsilon := 0.05
        cluster_selection_method := "leaf"
        gen_min_span_tree := false } [[1, 2]] :=
  (run_hdbscan_metric_policy constNoise id [[1, 2]] 2 "manhattan").2 (by decide)

/-- Claim C6: every invocation of the engine wrapper passes the density
algorithm exactly the caller-supplied minimum cluster size, minimum
samples 2, no single-cluster collapse, selection epsilon 0.05 and the
"leaf" selection strategy. -/
theorem run_hdbscan_params
    (H : HdbscanParams → List (List ℚ) → List Int)
    (nrm : List (List ℚ) → List (List ℚ))
    (emb : List (List ℚ)) (mcs : Nat) (m : String) :
    ∃ cfg : HdbscanParams,
      run_hdbscan H nrm emb mcs m
        = H cfg (if m = "cosine" then nrm emb else emb) ∧
      cfg.min_cluster_size = mcs ∧
      cfg.min_samples = 2 ∧
      cfg.allow_single_cluster = false ∧
      cfg.cluster_selection_epsilon = 0.05 ∧
      cfg.cluster_selection_method = "leaf" := by
  refine ⟨{ min_cluster_size := mcs
            min_samples := 2
            metric := if m = "cosine" then "euclidean" else m
            allow_single_cluster := false
            cluster_selection_epsilon := 0.05
            cluster_selection_method := "leaf"
            gen_min_span_tree := false }, ?_, rfl, rfl, rfl, rfl, rfl⟩
  unfold run_hdbscan
  by_cases hm : m = "cosine"
  · rw [if_pos hm, if_pos hm, if_pos hm]
  · rw [if_neg hm, if_neg hm, if_neg hm]

/-- Counterexample to claim C5 as stated: in the degenerate path itemN,
which lacks an embedding, is not contained in the output's noise_items;
the noise list holds the items that do have embeddings. -/
theorem degenerate_noise_counterexample :
    hasEmbedding itemN = false ∧
    itemN ∈ [itemN, itemA] ∧
    (filteredItems [itemN, itemA]).length < 3 ∧
    (phase2Main constNoise id "d" 3 "euclidean" [itemN, itemA]).map
      (fun r => decide (itemN ∈ r.noise_items)) = some false := by
  refine ⟨rfl, by decide, by decide, by rfl⟩

/-- Claim C5 amended: in the degenerate path noise_items is exactly the
ordered embedding-filtered set, so every item in it has a non-empty
embedding; items lacking embeddings never appear in the output. -/
theorem degenerate_noise_filtered
    (H : HdbscanParams → List (List ℚ) → List Int)
    (nrm : List (List ℚ) → List (List ℚ))
    (d : String) (mcs : Nat) (m : String) (items : List Item)
    (h : (filteredItems items).length < mcs) :
    ∃ r, phase2Main H nrm d mcs m items = some r ∧
      r.noise_items = filteredItems items ∧
      ∀ it ∈ r.noise_items, hasEmbedding it = true := by
  refine ⟨_, by unfold phase2Main; rw [if_pos h], rfl, ?_⟩
  intro it hit
  simp only [filteredItems] at hit
  exact (List.mem_filter.mp hit).2

/-- Instantiation of the amended C5: the degenerate output on
[itemN, itemA] has noise [itemA], and its one noise item carries an
embedding. -/
theorem degenerate_noise_filtered_witness :
    ∃ r, phase2Main constNoise id "d" 3 "euclidean" [itemN, itemA] = some r ∧
      r.noise_items = filteredItems [itemN, itemA] ∧
      ∀ it ∈ r.noise_items, hasEmbedding it = true :=
  degenerate_noise_filtered constNoise id "d" 3 "euclidean" [itemN, itemA] (by decide)

/-- Claim C10: the degenerate-path threshold is checked before sampling
only.  On four same-publisher items with min_cluster_size 4 the filtered
count is 4, so the degenerate path is not taken, yet the sampler keeps
only 3 items and the cluster engine runs on 3 < 4 vectors (the output's
sampled_items is 3). -/
theorem threshold_checked_before_sampling :
    (filteredItems [itemA, itemB, itemC, itemD]).length = 4 ∧
    ¬ ((filteredItems [itemA, itemB, itemC, itemD]).length < 4) ∧
    (uniform_sampling (filteredItems [itemA, itemB, itemC, itemD]) 3).map List.length
      = some 3 ∧
    (phase2Main constNoise id "d" 4 "euclidean" [itemA, itemB, itemC, itemD]).map
      (fun r => r.stats.sampled_items) = some 3 ∧
    3 < 4 := by
  refine ⟨by decide, by decide, by rfl, by rfl, by decide⟩

/-- Inserting under a label leaves the key sequence unchanged when the
label is already a key, and appends the label at the end otherwise. -/
theorem addToCluster_keys (cl : List (Int × List Item)) (lab : Int) (it : Item) :
    (addToCluster cl lab it).map Prod.fst =
      if lab ∈ cl.map Prod.fst then cl.map Prod.fst else cl.map Prod.fst ++ [lab] := by
  induction cl with
  | nil => simp [addToCluster]
  | cons hd tl ih =>
    obtain ⟨l, its⟩ := hd
    rw [addToCluster]
    by_cases hl : l = lab
    · subst hl
      rw [if_pos rfl]
      simp
    · rw [if_neg hl]
      by_cases hmem : lab ∈ tl.map Prod.fst
      · simp only [List.map_cons, ih, if_pos hmem]
        rw [if_pos (by simp [hmem])]
      · have hnm : ¬ lab ∈ ((l, its) :: tl).map Prod.fst := by
          simp only [List.map_cons, List.mem_cons]
          push_neg
          exact ⟨fun hq => hl hq.symm, hmem⟩
        rw [if_neg hnm]
        simp only [List.map_cons, ih, if_neg hmem]
        simp

/-- Inserting appends the item to the looked-up bucket of its label. -/
theorem addToCluster_assoc_self (cl : List (Int × List Item)) (lab : Int) (it : Item) :
    assocD (addToCluster cl lab it) lab = assocD cl lab ++ [it] := by
  induction cl with
  | nil => simp [addToCluster, assocD]
  | cons hd tl ih =>
    obtain ⟨l, its⟩ := hd
    rw [addToCluster]
    by_cases hl : l = lab
    · rw [if_pos hl, assocD, if_pos hl, assocD, if_pos hl]
    · rw [if_neg hl, assocD, if_neg hl, assocD, if_neg hl]
      exact ih

/-- Inserting under one label leaves every other label's bucket alone. -/
theorem addToCluster_assoc_other (cl : List (Int × List Item)) (lab lab' : Int) (it : Item)
    (hne : lab' ≠ lab) :
    assocD (addToCluster cl lab it) lab' = assocD cl lab' := by
  induction cl with
  | nil =>
    rw [addToCluster, assocD, assocD]
    rw [if_neg (fun hq => hne hq.symm)]
    rfl
  | cons hd tl ih =>
    obtain ⟨l, its⟩ := hd
    rw [addToCluster]
    by_cases hl : l = lab
    · have hl' : ¬ l = lab' := fun hq => hne (hq.symm.trans hl)
      rw [if_pos hl, assocD, if_neg hl', assocD, if_neg hl']
    · rw [if_neg hl, assocD, assocD]
      by_cases hl' : l = lab'
      · rw [if_pos hl', if_pos hl']
      · rw [if_neg hl', if_neg hl']
        exact ih

/-- The scan-order item selection ignores a leading pair whose label
differs. -/
theorem labItems_cons_ne (lab lab2 : Int) (it : Item) (labs : List Int) (its : List Item)
    (h : ¬ lab2 = lab) :
    labItems lab (lab2 :: labs) (it :: its) = labItems lab labs its := by
  simp [labItems, List.filter_cons, h]

/-- The scan-order item selection keeps a leading pair whose label
matches. -/
theorem labItems_cons_eq (lab : Int) (it : Item) (labs : List Int) (its : List Item) :
    labItems lab (lab :: labs) (it :: its) = it :: labItems lab labs its := by
  simp [labItems, List.filter_cons]

/-- firstOccurrences only depends on the membership of the seen list. -/
theorem firstOccurrences_congr (l : List Int) :
    ∀ s1 s2 : List Int, (∀ x, x ∈ s1 ↔ x ∈ s2) →
      firstOccurrences s1 l = firstOccurrences s2 l := by
  induction l with
  | nil => intro s1 s2 _; rfl
  | cons x xs ih =>
    intro s1 s2 hs
    rw [firstOccurrences, firstOccurrences]
    by_cases hx : x ∈ s1
    · rw [if_pos hx, if_pos ((hs x).mp hx)]
      exact ih s1 s2 hs
    · rw [if_neg hx, if_neg (fun hq => hx ((hs x).mpr hq))]
      rw [ih (x :: s1) (x :: s2) (fun y => by simp [hs y])]

/-- The shape invariant of the partition loop: keys extend in
first-encounter order of the non-noise labels, each label's bucket extends
by the items carrying that label in scan order, and the noise list extends
by the items labelled -1 in scan order. -/
theorem assembleGo_shape (labs : List Int) :
    ∀ (its : List Item) (cl : List (Int × List Item)) (ns : List Item)
      (cl' : List (Int × List Item)) (ns' : List Item),
      labs.length = its.length →
      assembleGo labs its cl ns = some (cl', ns') →
      cl'.map Prod.fst = cl.map Prod.fst
          ++ firstOccurrences (cl.map Prod.fst) (labs.filter (fun x => decide (x ≠ -1)))
      ∧ (∀ lab : Int, lab ≠ -1 →
          assocD cl' lab = assocD cl lab ++ labItems lab labs its)
      ∧ ns' = ns ++ labItems (-1) labs its := by
  induction labs with
  | nil =>
    intro its cl ns cl' ns' hlen h
    cases its with
    | nil =>
      rw [assembleGo] at h
      simp only [Option.some.injEq, Prod.mk.injEq] at h
      obtain ⟨rfl, rfl⟩ := h
      refine ⟨by simp [firstOccurrences], fun lab _ => by simp [labItems], by simp [labItems]⟩
    | cons _ _ => simp at hlen
  | cons lab labs2 ih =>
    intro its cl ns cl' ns' hlen h
    cases its with
    | nil => simp at hlen
    | cons it its2 =>
      rw [assembleGo] at h
      have hlen2 : labs2.length = its2.length := by simpa using hlen
      by_cases hl : lab = -1
      · rw [if_pos hl] at h
        obtain ⟨hkeys, hbuck, hns⟩ := ih its2 cl (ns ++ [it]) cl' ns' hlen2 h
        subst hl
        refine ⟨?_, ?_, ?_⟩
        · have hfc : ((-1 : Int) :: labs2).filter (fun x => decide (x ≠ -1))
              = labs2.filter (fun x => decide (x ≠ -1)) := by simp
          rw [hfc]
          exact hkeys
        · intro lab' hlab'
          rw [hbuck lab' hlab', labItems_cons_ne lab' (-1) it labs2 its2
            (fun hq => hlab' hq.symm)]
        · rw [hns, labItems_cons_eq]
          simp
      · rw [if_neg hl] at h
        obtain ⟨hkeys, hbuck, hns⟩ := ih its2 (addToCluster cl lab it) ns cl' ns' hlen2 h
        refine ⟨?_, ?_, ?_⟩
        · rw [hkeys, addToCluster_keys]
          have hfc : (lab :: labs2).filter (fun x => decide (x ≠ -1))
              = lab :: labs2.filter (fun x => decide (x ≠ -1)) := by
            simp [List.filter_cons, hl]
          rw [hfc]
          by_cases hmem : lab ∈ cl.map Prod.fst
          · rw [if_pos hmem, firstOccurrences, if_pos hmem]
          · rw [if_neg hmem, firstOccurrences, if_neg hmem]
            rw [firstOccurrences_congr _ (cl.map Prod.fst ++ [lab]) (lab :: cl.map Prod.fst)
              (fun y => by simp [or_comm])]
            simp
        · intro lab' hlab'
          by_cases hll : lab' = lab
          · subst hll
            rw [hbuck lab' hlab', addToCluster_assoc_self, labItems_cons_eq]
            simp
          · rw [hbuck lab' hlab', addToCluster_assoc_other cl lab lab' it hll,
              labItems_cons_ne lab' lab it labs2 its2 (fun hq => hll hq.symm)]
        · rw [hns, labItems_cons_ne (-1) lab it labs2 its2 hl]

/-- Claim C7: the assembler orders clusters by the position at which each
non-noise label is first encountered scanning by ascending index; within
each cluster the items appear in scan order, and the noise items appear in
scan order. -/
theorem assemble_first_encounter (sampled : List Item) (labels : List Int)
    (p : List (Int × List Item) × List Item)
    (hlen : labels.length = sampled.length)
    (h : assemble sampled labels = some p) :
    p.1.map Prod.fst = firstOccurrences [] (labels.filter (fun x => decide (x ≠ -1))) ∧
    (∀ lab : Int, lab ≠ -1 → assocD p.1 lab = labItems lab labels sampled) ∧
    p.2 = labItems (-1) labels sampled := by
  obtain ⟨cl1, ns1⟩ := p
  obtain ⟨hkeys, hbuck, hns⟩ := assembleGo_shape labels sampled [] [] cl1 ns1 hlen h
  refine ⟨by simpa using hkeys, fun lab hlab => ?_, by simpa using hns⟩
  have := hbuck lab hlab
  simpa [assocD] using this

/-- Instantiation of C7: labels [5, -1, 5] on three items put itemA and
itemC into cluster 5 in scan order, and itemB into noise. -/
theorem assemble_first_encounter_witness :
    ([(5, [itemA, itemC])] : List (Int × List Item)).map Prod.fst
      = firstOccurrences [] (([5, -1, 5] : List Int).filter (fun x => decide (x ≠ -1))) ∧
    (∀ lab : Int, lab ≠ -1 →
      assocD ([(5, [itemA, itemC])] : List (Int × List Item)) lab
        = labItems lab [5, -1, 5] [itemA, itemB, itemC]) ∧
    ([itemB] : List Item) = labItems (-1) [5, -1, 5] [itemA, itemB, itemC] :=
  assemble_first_encounter [itemA, itemB, itemC] [5, -1, 5]
    ([(5, [itemA, itemC])], [itemB]) (by decide) (by rfl)

end Phase2
